import Mathlib

/-!
Verification of the diff engine in `public-api/src/diff.rs`.

The engine's single entry point is `PublicItemsDiff::between(old_items,
new_items)`.  It builds a `HashBag` (multiset) from each input vector,
computes the two bag differences, regroups each difference by item path
(`bag_to_path_map`), pairs same-path survivors into changed items by
repeatedly popping one element from the back of each per-path vector, and
finally sorts the three result vectors.

`HashBag` and `HashMap` iterate in an unspecified (hash-dependent) order.
That order is observable: it fixes the order of each per-path vector and
thereby which removed candidate is paired with which added candidate.  The
embedding therefore takes the expanded contents of the two difference bags
as explicit lists (`betweenEnums`); `IsDiffEnum` characterises exactly the
lists a `HashBag` difference can produce (the multiplicities, leaving the
order free).  `between` instantiates the two lists with one concrete
enumeration (`canonicalDiffEnum`), giving an executable model.  The order
in which the `HashMap`s yield their keys (`touched_paths`) only permutes
the three result vectors before they are sorted, so it is fixed to
first-occurrence order here.
-/

/-- Modelled from the spec: the external item type (`PublicItem`, defined
outside the diff engine) is an immutable value with a `path` (an ordered
sequence of string segments) and a totally ordered rendering (an ordered
sequence of display tokens); two items are equal iff path and rendering
are equal, and items are ordered lexicographically, path first, then
rendering.  Segments and tokens are modelled as character sequences
(`List Char`): Lean's built-in `String` order is definitionally opaque to
the kernel, and `List Char` carries the same lexicographic order. -/
structure PublicItem where
  path : List (List Char)
  tokens : List (List Char)
deriving DecidableEq, Repr

/-- `type PublicItemPath = Vec<String>` (the grouping key). -/
abbrev PublicItemPath := List (List Char)

/-- Lexicographic order, `path` first, then `tokens` — the order the spec
requires of the external item type (Rust: `#[derive(PartialOrd, Ord)]`). -/
instance : LinearOrder PublicItem :=
  LinearOrder.lift' (fun i => toLex (i.path, i.tokens))
    (fun a b h => by
      cases a; cases b
      simpa [toLex, Prod.ext_iff] using h)

/-- `ChangedPublicItem` from diff.rs: how the item used to look (`old`)
and how it looks now (`new`). -/
structure ChangedPublicItem where
  old : PublicItem
  new : PublicItem
deriving DecidableEq, Repr

/-- Rust: `#[derive(PartialOrd, Ord)]` on `ChangedPublicItem`, i.e.
lexicographic on the fields, `old` first, then `new`. -/
instance : LinearOrder ChangedPublicItem :=
  LinearOrder.lift' (fun c => toLex (c.old, c.new))
    (fun a b h => by
      cases a; cases b
      simpa [toLex, Prod.ext_iff] using h)

/-- `PublicItemsDiff` from diff.rs: the return value of `between`. -/
structure PublicItemsDiff where
  removed : List PublicItem
  changed : List ChangedPublicItem
  added : List PublicItem
deriving DecidableEq, Repr

/-- `PublicItemsDiff::is_empty` from diff.rs:
`self.removed.is_empty() && self.changed.is_empty() && self.added.is_empty()`. -/
def PublicItemsDiff.is_empty (d : PublicItemsDiff) : Bool :=
  d.removed.isEmpty && d.changed.isEmpty && d.added.isEmpty

/-- `bag_to_path_map` from diff.rs, read off as the lookup function of the
produced `HashMap` (missing keys give the empty vector, matching
`unwrap_or_default`).  The argument `diff` is the bag-difference iterator
with each `(item, occurrences)` entry expanded into `occurrences` copies,
in iteration order; `map.entry(item.path).or_default().push(...)` appends,
so the vector stored under `p` is the subsequence of `diff` whose items
have path `p`. -/
def bag_to_path_map (diff : List PublicItem) (p : PublicItemPath) : List PublicItem :=
  diff.filter (fun it => it.path = p)

/-- The pairing loop of `between` (diff.rs, the `loop` over
`removed_items.pop()` / `added_items.pop()`) for one touched path.
`Vec::pop` takes from the back, so the two arguments here are the per-path
vectors reversed and popping is taking the head.  Returns the
(removed, changed, added) contributions of this path, each in emission
order.  Once one vector is exhausted the loop just drains the other one
element at a time, so those two cases are written in drained form. -/
def pairItems : List PublicItem → List PublicItem →
    List PublicItem × List ChangedPublicItem × List PublicItem
  | [], ns => ([], [], ns)
  | o :: os, [] => (o :: os, [], [])
  | o :: os, n :: ns =>
    let r := pairItems os ns
    (r.1, ⟨o, n⟩ :: r.2.1, r.2.2)

/-- `touched_paths` from diff.rs: the keys of `removed_paths` followed by
the keys of `added_paths`.  A path present in both maps occurs twice in
the Rust vector, but its second visit pops nothing (`HashMap::remove`
already emptied both entries), so deduplicating is faithful; the key
order, unspecified in Rust, only permutes the pre-sort result vectors and
is fixed to first-occurrence order. -/
def touchedPaths (allRemoved allAdded : List PublicItem) : List PublicItemPath :=
  ((allRemoved ++ allAdded).map (fun it => it.path)).dedup

/-- The body of `PublicItemsDiff::between` from diff.rs, parametrised by
the expanded contents of the two bag differences (`all_removed` and
`all_added`), whose iteration order `HashBag` leaves unspecified. -/
def betweenEnums (allRemoved allAdded : List PublicItem) : PublicItemsDiff :=
  let removed := (touchedPaths allRemoved allAdded).flatMap fun p =>
    (pairItems (bag_to_path_map allRemoved p).reverse (bag_to_path_map allAdded p).reverse).1
  let changed := (touchedPaths allRemoved allAdded).flatMap fun p =>
    (pairItems (bag_to_path_map allRemoved p).reverse (bag_to_path_map allAdded p).reverse).2.1
  let added := (touchedPaths allRemoved allAdded).flatMap fun p =>
    (pairItems (bag_to_path_map allRemoved p).reverse (bag_to_path_map allAdded p).reverse).2.2
  { removed := List.insertionSort (· ≤ ·) removed
    changed := List.insertionSort (· ≤ ·) changed
    added := List.insertionSort (· ≤ ·) added }

/-- `enum` is a possible expansion of the `HashBag` difference
`old − new`: hashbag's `difference` yields each distinct value with
multiplicity `count_old − count_new` whenever that is positive, in an
unspecified order.  (Nat subtraction is truncated, i.e.
`a - b = max 0 (a − b)`.) -/
def IsDiffEnum (old new enum : List PublicItem) : Prop :=
  ∀ v : PublicItem, enum.count v = old.count v - new.count v

/-- One concrete iteration order for the bag difference `old − new`:
distinct values in first-occurrence order of the minuend. -/
def canonicalDiffEnum (old new : List PublicItem) : List PublicItem :=
  old.dedup.flatMap fun v => List.replicate (old.count v - new.count v) v

/-- `PublicItemsDiff::between` from diff.rs, with the unspecified bag
iteration order instantiated by `canonicalDiffEnum`. -/
def between (old_items new_items : List PublicItem) : PublicItemsDiff :=
  betweenEnums (canonicalDiffEnum old_items new_items)
    (canonicalDiffEnum new_items old_items)

/-! ### Concrete items for witnesses and counterexamples

Four distinct renderings sharing the path `a`, two items at private paths,
and the four function renderings of the regression scenario at `a::b`. -/

def itemA : PublicItem := ⟨[['a']], [['1']]⟩

def itemB : PublicItem := ⟨[['a']], [['2']]⟩

def itemC : PublicItem := ⟨[['a']], [['3']]⟩

def itemD : PublicItem := ⟨[['a']], [['4']]⟩

def itemE : PublicItem := ⟨[['q']], [['5']]⟩

def itemG : PublicItem := ⟨[['s']], [['6']]⟩

def fnI8 : PublicItem := ⟨[['a'], ['b']], [['i'], ['8']]⟩

def fnI32 : PublicItem := ⟨[['a'], ['b']], [['i'], ['3', '2']]⟩

def fnI64 : PublicItem := ⟨[['a'], ['b']], [['i'], ['6', '4']]⟩

def fnU8 : PublicItem := ⟨[['a'], ['b']], [['u'], ['8']]⟩

/-! ### Facts about the per-path pairing loop -/

/-- Each removed survivor of a path, plus each changed pair counted by its
`old` member, accounts for exactly one occurrence in the removed-candidate
vector of that path. -/
lemma pairItems_count_old (os ns : List PublicItem) (v : PublicItem) :
    (pairItems os ns).1.count v
      + (pairItems os ns).2.1.countP (fun c => c.old = v) = os.count v := by
  induction os generalizing ns with
  | nil => simp [pairItems]
  | cons o os ih =>
    cases ns with
    | nil => simp [pairItems]
    | cons n ns =>
      simp only [pairItems, List.countP_cons, List.count_cons, beq_iff_eq,
        decide_eq_true_eq]
      have := ih ns
      omega

/-- Symmetrically for the added-candidate vector and `new` members. -/
lemma pairItems_count_new (os ns : List PublicItem) (v : PublicItem) :
    (pairItems os ns).2.2.count v
      + (pairItems os ns).2.1.countP (fun c => c.new = v) = ns.count v := by
  induction os generalizing ns with
  | nil => simp [pairItems]
  | cons o os ih =>
    cases ns with
    | nil => simp [pairItems]
    | cons n ns =>
      simp only [pairItems, List.countP_cons, List.count_cons, beq_iff_eq,
        decide_eq_true_eq]
      have := ih ns
      omega

lemma pairItems_length_old (os ns : List PublicItem) :
    (pairItems os ns).1.length + (pairItems os ns).2.1.length = os.length := by
  induction os generalizing ns with
  | nil => simp [pairItems]
  | cons o os ih =>
    cases ns with
    | nil => simp [pairItems]
    | cons n ns =>
      have := ih ns
      simp only [pairItems, List.length_cons]
      omega

lemma pairItems_length_new (os ns : List PublicItem) :
    (pairItems os ns).2.2.length + (pairItems os ns).2.1.length = ns.length := by
  induction os generalizing ns with
  | nil => simp [pairItems]
  | cons o os ih =>
    cases ns with
    | nil => simp [pairItems]
    | cons n ns =>
      have := ih ns
      simp only [pairItems, List.length_cons]
      omega

lemma pairItems_length_removed (os ns : List PublicItem) :
    (pairItems os ns).1.length = os.length - ns.length := by
  induction os generalizing ns with
  | nil => simp [pairItems]
  | cons o os ih =>
    cases ns with
    | nil => simp [pairItems]
    | cons n ns => simpa [pairItems] using ih ns

lemma pairItems_length_added (os ns : List PublicItem) :
    (pairItems os ns).2.2.length = ns.length - os.length := by
  induction os generalizing ns with
  | nil => simp [pairItems]
  | cons o os ih =>
    cases ns with
    | nil => simp [pairItems]
    | cons n ns => simpa [pairItems] using ih ns

lemma pairItems_length_changed (os ns : List PublicItem) :
    (pairItems os ns).2.1.length = min os.length ns.length := by
  induction os generalizing ns with
  | nil => simp [pairItems]
  | cons o os ih =>
    cases ns with
    | nil => simp [pairItems]
    | cons n ns =>
      have := ih ns
      simp only [pairItems, List.length_cons, this]
      omega

lemma pairItems_mem_removed {os ns : List PublicItem} {x : PublicItem}
    (h : x ∈ (pairItems os ns).1) : x ∈ os := by
  induction os generalizing ns with
  | nil => simp [pairItems] at h
  | cons o os ih =>
    cases ns with
    | nil => simpa [pairItems] using h
    | cons n ns =>
      simp only [pairItems] at h
      exact List.mem_cons_of_mem _ (ih h)

lemma pairItems_mem_added {os ns : List PublicItem} {x : PublicItem}
    (h : x ∈ (pairItems os ns).2.2) : x ∈ ns := by
  induction os generalizing ns with
  | nil => simpa [pairItems] using h
  | cons o os ih =>
    cases ns with
    | nil => simp [pairItems] at h
    | cons n ns =>
      simp only [pairItems] at h
      exact List.mem_cons_of_mem _ (ih h)

lemma pairItems_mem_changed {os ns : List PublicItem} {c : ChangedPublicItem}
    (h : c ∈ (pairItems os ns).2.1) : c.old ∈ os ∧ c.new ∈ ns := by
  induction os generalizing ns with
  | nil => simp [pairItems] at h
  | cons o os ih =>
    cases ns with
    | nil => simp [pairItems] at h
    | cons n ns =>
      simp only [pairItems, List.mem_cons] at h
      rcases h with h | h
      · subst h
        exact ⟨List.mem_cons_self _ _, List.mem_cons_self _ _⟩
      · obtain ⟨h₁, h₂⟩ := ih h
        exact ⟨List.mem_cons_of_mem _ h₁, List.mem_cons_of_mem _ h₂⟩

/-- Swapping the two vectors swaps the removed and added outputs and
mirrors every changed pair. -/
lemma pairItems_swap (os ns : List PublicItem) :
    pairItems ns os = ((pairItems os ns).2.2,
      (pairItems os ns).2.1.map (fun c => ⟨c.new, c.old⟩),
      (pairItems os ns).1) := by
  induction os generalizing ns with
  | nil =>
    cases ns with
    | nil => simp [pairItems]
    | cons n ns => simp [pairItems]
  | cons o os ih =>
    cases ns with
    | nil => simp [pairItems]
    | cons n ns => simp [pairItems, ih ns]

/-! ### Summation helpers for the per-path decomposition -/

lemma sum_map_add_distrib {γ : Type} (ts : List γ) (f g : γ → Nat) :
    (ts.map fun p => f p + g p).sum = (ts.map f).sum + (ts.map g).sum := by
  induction ts with
  | nil => simp
  | cons t ts ih =>
    simp only [List.map_cons, List.sum_cons, ih]
    omega

lemma sum_map_ite {γ : Type} [DecidableEq γ] (ts : List γ) (x : γ) (f : γ → Nat)
    (h : ts.Nodup) :
    (ts.map fun p => if x = p then f p else 0).sum = if x ∈ ts then f x else 0 := by
  induction ts with
  | nil => simp
  | cons t ts ih =>
    rw [List.nodup_cons] at h
    rw [List.map_cons, List.sum_cons, ih h.2]
    by_cases hx : x = t
    · subst hx
      rw [if_pos rfl, if_neg h.1, if_pos (List.mem_cons_self _ _), Nat.add_zero]
    · rw [if_neg hx, Nat.zero_add]
      by_cases hm : x ∈ ts
      · rw [if_pos hm, if_pos (List.mem_cons_of_mem _ hm)]
      · rw [if_neg hm, if_neg (fun hc => (List.mem_cons.mp hc).elim hx hm)]

lemma count_filter_path (l : List PublicItem) (p : PublicItemPath) (v : PublicItem) :
    (l.filter fun it => it.path = p).count v
      = if v.path = p then l.count v else 0 := by
  by_cases hv : v.path = p
  · rw [if_pos hv, List.count_filter]
    simpa using hv
  · rw [if_neg hv]
    refine List.count_eq_zero_of_not_mem fun hm => hv ?this
    simpa using (List.mem_filter.mp hm).2

lemma path_mem_touchedPaths {allRemoved allAdded : List PublicItem}
    {it : PublicItem} (h : it ∈ allRemoved ∨ it ∈ allAdded) :
    it.path ∈ touchedPaths allRemoved allAdded := by
  unfold touchedPaths
  rw [List.mem_dedup, List.mem_map]
  exact ⟨it, List.mem_append.mpr h, rfl⟩

lemma nodup_touchedPaths (allRemoved allAdded : List PublicItem) :
    (touchedPaths allRemoved allAdded).Nodup :=
  List.nodup_dedup _

/-! ### Count conservation through the whole pipeline -/

/-- Every occurrence in the removed-candidate bag ends up either in
`removed` or as the `old` member of a changed pair — for each distinct
value separately. -/
lemma betweenEnums_count_old (allRemoved allAdded : List PublicItem) (v : PublicItem) :
    (betweenEnums allRemoved allAdded).removed.count v
      + (betweenEnums allRemoved allAdded).changed.countP (fun c => c.old = v)
      = allRemoved.count v := by
  show (List.insertionSort _ _).count v + (List.insertionSort _ _).countP _ = _
  rw [(List.perm_insertionSort _ _).count_eq, (List.perm_insertionSort _ _).countP_eq,
    List.count_flatMap, List.countP_flatMap, ← sum_map_add_distrib]
  have pw : ∀ p ∈ touchedPaths allRemoved allAdded,
      (List.count v ∘ fun p =>
          (pairItems (bag_to_path_map allRemoved p).reverse
            (bag_to_path_map allAdded p).reverse).1) p
        + ((List.countP fun c => decide (c.old = v)) ∘ fun p =>
          (pairItems (bag_to_path_map allRemoved p).reverse
            (bag_to_path_map allAdded p).reverse).2.1) p
      = if v.path = p then allRemoved.count v else 0 := by
    intro p _
    have h1 := pairItems_count_old (bag_to_path_map allRemoved p).reverse
      (bag_to_path_map allAdded p).reverse v
    rw [List.count_reverse] at h1
    rw [Function.comp_apply, Function.comp_apply, h1, bag_to_path_map,
      count_filter_path]
  rw [List.map_congr_left pw,
    sum_map_ite _ _ _ (nodup_touchedPaths allRemoved allAdded)]
  by_cases hm : v.path ∈ touchedPaths allRemoved allAdded
  · rw [if_pos hm]
  · rw [if_neg hm]
    refine (List.count_eq_zero_of_not_mem fun hv => hm ?this).symm
    exact path_mem_touchedPaths (Or.inl hv)

/-- Symmetrically on the added side. -/
lemma betweenEnums_count_new (allRemoved allAdded : List PublicItem) (v : PublicItem) :
    (betweenEnums allRemoved allAdded).added.count v
      + (betweenEnums allRemoved allAdded).changed.countP (fun c => c.new = v)
      = allAdded.count v := by
  show (List.insertionSort _ _).count v + (List.insertionSort _ _).countP _ = _
  rw [(List.perm_insertionSort _ _).count_eq, (List.perm_insertionSort _ _).countP_eq,
    List.count_flatMap, List.countP_flatMap, ← sum_map_add_distrib]
  have pw : ∀ p ∈ touchedPaths allRemoved allAdded,
      (List.count v ∘ fun p =>
          (pairItems (bag_to_path_map allRemoved p).reverse
            (bag_to_path_map allAdded p).reverse).2.2) p
        + ((List.countP fun c => decide (c.new = v)) ∘ fun p =>
          (pairItems (bag_to_path_map allRemoved p).reverse
            (bag_to_path_map allAdded p).reverse).2.1) p
      = if v.path = p then allAdded.count v else 0 := by
    intro p _
    have h1 := pairItems_count_new (bag_to_path_map allRemoved p).reverse
      (bag_to_path_map allAdded p).reverse v
    rw [List.count_reverse] at h1
    rw [Function.comp_apply, Function.comp_apply, h1, bag_to_path_map,
      count_filter_path]
  rw [List.map_congr_left pw,
    sum_map_ite _ _ _ (nodup_touchedPaths allRemoved allAdded)]
  by_cases hm : v.path ∈ touchedPaths allRemoved allAdded
  · rw [if_pos hm]
  · rw [if_neg hm]
    refine (List.count_eq_zero_of_not_mem fun hv => hm ?this).symm
    exact path_mem_touchedPaths (Or.inr hv)

/-! ### Per-path arithmetic of the result -/

lemma mem_bag_to_path_map {diff : List PublicItem} {q : PublicItemPath}
    {x : PublicItem} (h : x ∈ (bag_to_path_map diff q).reverse) :
    x ∈ diff ∧ x.path = q := by
  rw [List.mem_reverse, bag_to_path_map, List.mem_filter] at h
  exact ⟨h.1, by simpa using h.2⟩

lemma bag_to_path_map_eq_nil {allRemoved allAdded : List PublicItem}
    {p : PublicItemPath} (h : p ∉ touchedPaths allRemoved allAdded) :
    bag_to_path_map allRemoved p = [] ∧ bag_to_path_map allAdded p = [] := by
  constructor <;>
    · rw [List.eq_nil_iff_forall_not_mem]
      intro x hx
      rw [bag_to_path_map, List.mem_filter, decide_eq_true_eq] at hx
      exact h (hx.2 ▸ path_mem_touchedPaths (by first
        | exact Or.inl hx.1
        | exact Or.inr hx.1))

lemma countP_flatMap_ite {β : Type} (ts : List PublicItemPath) (hnd : ts.Nodup)
    (f : PublicItemPath → List β) (q : β → Bool) (p : PublicItemPath)
    (hpt : ∀ t ∈ ts, (f t).countP q = if p = t then (f t).length else 0) :
    (ts.flatMap f).countP q = if p ∈ ts then (f p).length else 0 := by
  rw [List.countP_flatMap,
    List.map_congr_left (fun t ht => by rw [Function.comp_apply, hpt t ht])]
  have h := sum_map_ite ts p (fun t => (f t).length) hnd
  by_cases hm : p ∈ ts
  · rw [if_pos hm] at h
    rw [if_pos hm, h]
  · rw [if_neg hm] at h
    rw [if_neg hm, h]

/-- At a path with `r` removed candidates and `a` added candidates, the
result keeps exactly `r − a` (truncated) items in `removed`. -/
lemma betweenEnums_removed_countP_path (allRemoved allAdded : List PublicItem)
    (p : PublicItemPath) :
    (betweenEnums allRemoved allAdded).removed.countP (fun it => it.path = p)
      = (bag_to_path_map allRemoved p).length - (bag_to_path_map allAdded p).length := by
  show (List.insertionSort _ _).countP _ = _
  rw [(List.perm_insertionSort _ _).countP_eq]
  rw [countP_flatMap_ite _ (nodup_touchedPaths allRemoved allAdded) _ _ p ?hpt]
  case hpt =>
    intro t _
    by_cases hp : p = t
    · subst hp
      rw [if_pos rfl, List.countP_eq_length.mpr]
      intro x hx
      have := (mem_bag_to_path_map (pairItems_mem_removed hx)).2
      simpa using this
    · rw [if_neg hp, List.countP_eq_zero.mpr]
      intro x hx
      have := (mem_bag_to_path_map (pairItems_mem_removed hx)).2
      simp only [decide_eq_true_eq]
      exact fun hc => hp (by rw [← hc, this])
  by_cases hm : p ∈ touchedPaths allRemoved allAdded
  · rw [if_pos hm, pairItems_length_removed, List.length_reverse, List.length_reverse]
  · rw [if_neg hm, (bag_to_path_map_eq_nil hm).1, (bag_to_path_map_eq_nil hm).2]
    rfl

/-- At a path with `r` removed candidates and `a` added candidates, the
result gains exactly `a − r` (truncated) items in `added`. -/
lemma betweenEnums_added_countP_path (allRemoved allAdded : List PublicItem)
    (p : PublicItemPath) :
    (betweenEnums allRemoved allAdded).added.countP (fun it => it.path = p)
      = (bag_to_path_map allAdded p).length - (bag_to_path_map allRemoved p).length := by
  show (List.insertionSort _ _).countP _ = _
  rw [(List.perm_insertionSort _ _).countP_eq]
  rw [countP_flatMap_ite _ (nodup_touchedPaths allRemoved allAdded) _ _ p ?hpt]
  case hpt =>
    intro t _
    by_cases hp : p = t
    · subst hp
      rw [if_pos rfl, List.countP_eq_length.mpr]
      intro x hx
      have := (mem_bag_to_path_map (pairItems_mem_added hx)).2
      simpa using this
    · rw [if_neg hp, List.countP_eq_zero.mpr]
      intro x hx
      have := (mem_bag_to_path_map (pairItems_mem_added hx)).2
      simp only [decide_eq_true_eq]
      exact fun hc => hp (by rw [← hc, this])
  by_cases hm : p ∈ touchedPaths allRemoved allAdded
  · rw [if_pos hm, pairItems_length_added, List.length_reverse, List.length_reverse]
  · rw [if_neg hm, (bag_to_path_map_eq_nil hm).1, (bag_to_path_map_eq_nil hm).2]
    rfl

/-- At a path with `r` removed candidates and `a` added candidates, the
result contains exactly `min r a` changed pairs. -/
lemma betweenEnums_changed_countP_path (allRemoved allAdded : List PublicItem)
    (p : PublicItemPath) :
    (betweenEnums allRemoved allAdded).changed.countP (fun c => c.old.path = p)
      = min (bag_to_path_map allRemoved p).length (bag_to_path_map allAdded p).length := by
  show (List.insertionSort _ _).countP _ = _
  rw [(List.perm_insertionSort _ _).countP_eq]
  rw [countP_flatMap_ite _ (nodup_touchedPaths allRemoved allAdded) _ _ p ?hpt]
  case hpt =>
    intro t _
    by_cases hp : p = t
    · subst hp
      rw [if_pos rfl, List.countP_eq_length.mpr]
      intro c hc
      have := (mem_bag_to_path_map (pairItems_mem_changed hc).1).2
      simpa using this
    · rw [if_neg hp, List.countP_eq_zero.mpr]
      intro c hc
      have := (mem_bag_to_path_map (pairItems_mem_changed hc).1).2
      simp only [decide_eq_true_eq]
      exact fun hcc => hp (by rw [← hcc, this])
  by_cases hm : p ∈ touchedPaths allRemoved allAdded
  · rw [if_pos hm, pairItems_length_changed, List.length_reverse, List.length_reverse]
  · rw [if_neg hm, (bag_to_path_map_eq_nil hm).1, (bag_to_path_map_eq_nil hm).2]
    rfl

/-! ### Membership and path locality -/

lemma betweenEnums_mem_removed {allRemoved allAdded : List PublicItem}
    {x : PublicItem} (h : x ∈ (betweenEnums allRemoved allAdded).removed) :
    x ∈ allRemoved := by
  have h' := (List.perm_insertionSort _ _).mem_iff.mp h
  rw [List.mem_flatMap] at h'
  obtain ⟨p, _, hx⟩ := h'
  exact (mem_bag_to_path_map (pairItems_mem_removed hx)).1

lemma betweenEnums_mem_added {allRemoved allAdded : List PublicItem}
    {x : PublicItem} (h : x ∈ (betweenEnums allRemoved allAdded).added) :
    x ∈ allAdded := by
  have h' := (List.perm_insertionSort _ _).mem_iff.mp h
  rw [List.mem_flatMap] at h'
  obtain ⟨p, _, hx⟩ := h'
  exact (mem_bag_to_path_map (pairItems_mem_added hx)).1

lemma betweenEnums_mem_changed {allRemoved allAdded : List PublicItem}
    {c : ChangedPublicItem} (h : c ∈ (betweenEnums allRemoved allAdded).changed) :
    (c.old ∈ allRemoved ∧ c.new ∈ allAdded) ∧ c.old.path = c.new.path := by
  have h' := (List.perm_insertionSort _ _).mem_iff.mp h
  rw [List.mem_flatMap] at h'
  obtain ⟨p, _, hc⟩ := h'
  obtain ⟨ho, hn⟩ := pairItems_mem_changed hc
  have ho' := mem_bag_to_path_map ho
  have hn' := mem_bag_to_path_map hn
  exact ⟨⟨ho'.1, hn'.1⟩, ho'.2.trans hn'.2.symm⟩

/-- An item surviving in `removed` and an item surviving in `added` never
share a path: the pairing loop at their common path would have paired
them. -/
lemma betweenEnums_paths_disjoint {allRemoved allAdded : List PublicItem}
    {x y : PublicItem} (hx : x ∈ (betweenEnums allRemoved allAdded).removed)
    (hy : y ∈ (betweenEnums allRemoved allAdded).added) :
    x.path ≠ y.path := by
  have hx' := (List.perm_insertionSort _ _).mem_iff.mp hx
  have hy' := (List.perm_insertionSort _ _).mem_iff.mp hy
  rw [List.mem_flatMap] at hx' hy'
  obtain ⟨p, _, hxp⟩ := hx'
  obtain ⟨q, _, hyq⟩ := hy'
  have hxpath : x.path = p := (mem_bag_to_path_map (pairItems_mem_removed hxp)).2
  have hypath : y.path = q := (mem_bag_to_path_map (pairItems_mem_added hyq)).2
  intro heq
  have hpq : p = q := hxpath ▸ hypath ▸ heq
  subst hpq
  have hr : 0 < (pairItems (bag_to_path_map allRemoved p).reverse
      (bag_to_path_map allAdded p).reverse).1.length :=
    List.length_pos.mpr (List.ne_nil_of_mem hxp)
  have ha : 0 < (pairItems (bag_to_path_map allRemoved p).reverse
      (bag_to_path_map allAdded p).reverse).2.2.length :=
    List.length_pos.mpr (List.ne_nil_of_mem hyq)
  rw [pairItems_length_removed] at hr
  rw [pairItems_length_added] at ha
  omega

/-! ### Sortedness and the order on changed pairs -/

/-- The derived lexicographic order on `ChangedPublicItem` spelt out:
`old` member first, `new` member second. -/
lemma ChangedPublicItem.le_iff (c₁ c₂ : ChangedPublicItem) :
    c₁ ≤ c₂ ↔ c₁.old < c₂.old ∨ (c₁.old = c₂.old ∧ c₁.new ≤ c₂.new) := by
  show toLex (c₁.old, c₁.new) ≤ toLex (c₂.old, c₂.new) ↔ _
  rw [Prod.Lex.le_iff]

lemma betweenEnums_sorted (allRemoved allAdded : List PublicItem) :
    (betweenEnums allRemoved allAdded).removed.Sorted (· ≤ ·) ∧
    (betweenEnums allRemoved allAdded).changed.Sorted (· ≤ ·) ∧
    (betweenEnums allRemoved allAdded).added.Sorted (· ≤ ·) :=
  ⟨List.sorted_insertionSort _ _, List.sorted_insertionSort _ _,
    List.sorted_insertionSort _ _⟩

lemma insertionSort_congr_perm {β : Type} [LinearOrder β] {l₁ l₂ : List β}
    (h : l₁.Perm l₂) :
    List.insertionSort (· ≤ ·) l₁ = List.insertionSort (· ≤ ·) l₂ :=
  List.eq_of_perm_of_sorted
    ((List.perm_insertionSort _ _).trans (h.trans (List.perm_insertionSort _ _).symm))
    (List.sorted_insertionSort _ _) (List.sorted_insertionSort _ _)

/-! ### Swapping the two inputs -/

lemma touchedPaths_comm_perm (x y : List PublicItem) :
    (touchedPaths x y).Perm (touchedPaths y x) :=
  (List.perm_append_comm.map _).dedup

/-- Exchanging the two candidate bags exchanges `removed` and `added`
exactly, and mirrors `changed` up to order. -/
lemma betweenEnums_swap (x y : List PublicItem) :
    (betweenEnums y x).removed = (betweenEnums x y).added ∧
    (betweenEnums y x).added = (betweenEnums x y).removed ∧
    (betweenEnums y x).changed.Perm
      ((betweenEnums x y).changed.map (fun c => ⟨c.new, c.old⟩)) := by
  have hswap : ∀ p, pairItems (bag_to_path_map y p).reverse (bag_to_path_map x p).reverse
      = ((pairItems (bag_to_path_map x p).reverse (bag_to_path_map y p).reverse).2.2,
        (pairItems (bag_to_path_map x p).reverse (bag_to_path_map y p).reverse).2.1.map
          (fun c => ⟨c.new, c.old⟩),
        (pairItems (bag_to_path_map x p).reverse (bag_to_path_map y p).reverse).1) :=
    fun p => pairItems_swap _ _
  refine ⟨?hr, ?ha, ?hc⟩
  case hr =>
    apply insertionSort_congr_perm
    have e1 : (touchedPaths y x).flatMap (fun p =>
          (pairItems (bag_to_path_map y p).reverse (bag_to_path_map x p).reverse).1)
        = (touchedPaths y x).flatMap (fun p =>
          (pairItems (bag_to_path_map x p).reverse (bag_to_path_map y p).reverse).2.2) :=
      List.flatMap_congr fun p _ => by rw [hswap p]
    rw [e1]
    exact (touchedPaths_comm_perm y x).flatMap_right _
  case ha =>
    apply insertionSort_congr_perm
    have e1 : (touchedPaths y x).flatMap (fun p =>
          (pairItems (bag_to_path_map y p).reverse (bag_to_path_map x p).reverse).2.2)
        = (touchedPaths y x).flatMap (fun p =>
          (pairItems (bag_to_path_map x p).reverse (bag_to_path_map y p).reverse).1) :=
      List.flatMap_congr fun p _ => by rw [hswap p]
    rw [e1]
    exact (touchedPaths_comm_perm y x).flatMap_right _
  case hc =>
    have e1 : (touchedPaths y x).flatMap (fun p =>
          (pairItems (bag_to_path_map y p).reverse (bag_to_path_map x p).reverse).2.1)
        = (touchedPaths y x).flatMap (fun p =>
          ((pairItems (bag_to_path_map x p).reverse (bag_to_path_map y p).reverse).2.1).map
            (fun c => ⟨c.new, c.old⟩)) :=
      List.flatMap_congr fun p _ => by rw [hswap p]
    have e2 : (touchedPaths y x).flatMap (fun p =>
          ((pairItems (bag_to_path_map x p).reverse (bag_to_path_map y p).reverse).2.1).map
            (fun c => (⟨c.new, c.old⟩ : ChangedPublicItem)))
        = ((touchedPaths y x).flatMap (fun p =>
          (pairItems (bag_to_path_map x p).reverse (bag_to_path_map y p).reverse).2.1)).map
            (fun c => (⟨c.new, c.old⟩ : ChangedPublicItem)) :=
      (List.map_flatMap _ _ _).symm
    have step1 : (betweenEnums y x).changed.Perm
        (((touchedPaths y x).flatMap (fun p =>
          (pairItems (bag_to_path_map x p).reverse (bag_to_path_map y p).reverse).2.1)).map
            (fun c => (⟨c.new, c.old⟩ : ChangedPublicItem))) := by
      have h0 : (betweenEnums y x).changed.Perm
          ((touchedPaths y x).flatMap (fun p =>
            (pairItems (bag_to_path_map y p).reverse (bag_to_path_map x p).reverse).2.1)) :=
        List.perm_insertionSort _ _
      rw [e1, e2] at h0
      exact h0
    have step2 : (((touchedPaths y x).flatMap (fun p =>
          (pairItems (bag_to_path_map x p).reverse (bag_to_path_map y p).reverse).2.1)).map
            (fun c => (⟨c.new, c.old⟩ : ChangedPublicItem))).Perm
        (((betweenEnums x y).changed).map (fun c => ⟨c.new, c.old⟩)) := by
      refine List.Perm.map _ ?hp
      exact ((touchedPaths_comm_perm y x).flatMap_right _).trans
        (List.perm_insertionSort _ _).symm
    exact step1.trans step2

/-! ### The canonical enumeration and properties of valid enumerations -/

/-- `canonicalDiffEnum` has exactly the multiplicities of the bag
difference: `max 0 (count_old − count_new)` copies of each value. -/
lemma isDiffEnum_canonical (old new : List PublicItem) :
    IsDiffEnum old new (canonicalDiffEnum old new) := by
  intro v
  rw [canonicalDiffEnum, List.count_flatMap]
  have pw : ∀ u ∈ old.dedup,
      (List.count v ∘ fun u => List.replicate (old.count u - new.count u) u) u
        = if v = u then old.count u - new.count u else 0 := by
    intro u _
    rw [Function.comp_apply, List.count_replicate]
    by_cases h : u = v
    · rw [if_pos (by simpa using h), if_pos h.symm]
    · rw [if_neg (by simpa using h), if_neg fun hc => h hc.symm]
  rw [List.map_congr_left pw, sum_map_ite _ _ _ (List.nodup_dedup old)]
  by_cases hv : v ∈ old.dedup
  · rw [if_pos hv]
  · rw [if_neg hv]
    rw [List.mem_dedup] at hv
    rw [List.count_eq_zero_of_not_mem hv, Nat.zero_sub]

lemma length_canonicalDiffEnum_le (old new : List PublicItem) :
    (canonicalDiffEnum old new).length ≤ old.length := by
  rw [canonicalDiffEnum, List.length_flatMap]
  have h1 : (List.map (List.length ∘ fun v => List.replicate (old.count v - new.count v) v)
      old.dedup).sum ≤ (List.map (fun v => old.count v) old.dedup).sum :=
    List.sum_le_sum fun v _ => by
      rw [Function.comp_apply, List.length_replicate]
      exact Nat.sub_le _ _
  exact h1.trans_eq (List.sum_map_count_dedup_eq_length old)

/-- Any two valid enumerations of the same bag difference are
permutations of one another. -/
lemma isDiffEnum_perm {old new e₁ e₂ : List PublicItem}
    (h₁ : IsDiffEnum old new e₁) (h₂ : IsDiffEnum old new e₂) : e₁.Perm e₂ :=
  List.perm_iff_count.mpr fun v => (h₁ v).trans (h₂ v).symm

/-- Diffing a bag against itself leaves nothing to enumerate. -/
lemma isDiffEnum_self_eq_nil {x e : List PublicItem} (h : IsDiffEnum x x e) :
    e = [] := by
  cases e with
  | nil => rfl
  | cons a as =>
    have ha := h a
    rw [Nat.sub_self, List.count_cons, beq_self_eq_true, if_pos rfl] at ha
    omega

lemma betweenEnums_nil : betweenEnums [] [] = ⟨[], [], []⟩ := rfl

/-- `is_empty` holds exactly when the three sequences are empty. -/
lemma is_empty_iff (d : PublicItemsDiff) :
    d.is_empty = true ↔ d.removed = [] ∧ d.changed = [] ∧ d.added = [] := by
  rw [PublicItemsDiff.is_empty]
  simp [List.isEmpty_iff, and_assoc]

/-! ### Partitioning a candidate list by touched path -/

/-- Grouping a list by path over a duplicate-free list of paths covering
every member reassembles exactly the original list, up to order. -/
lemma flatMap_filter_perm (ts : List PublicItemPath) (l : List PublicItem)
    (hnd : ts.Nodup) (hc : ∀ it ∈ l, it.path ∈ ts) :
    (ts.flatMap fun p => l.filter fun it => it.path = p).Perm l := by
  induction ts generalizing l with
  | nil =>
    have hl : l = [] := List.eq_nil_iff_forall_not_mem.mpr fun a ha => by
      simpa using hc a ha
    simp [hl]
  | cons t ts ih =>
    rw [List.nodup_cons] at hnd
    rw [List.flatMap_cons]
    have step : ∀ q ∈ ts, l.filter (fun it => it.path = q)
        = (l.filter fun it => !(it.path = t)).filter (fun it => it.path = q) := by
      intro q hq
      have hqt : q ≠ t := fun h => hnd.1 (h ▸ hq)
      rw [List.filter_filter]
      refine (List.filter_congr fun it _ => ?eqb).symm
      by_cases hit : it.path = q
      · simp [hit, hqt]
      · simp [hit]
    rw [List.flatMap_congr step]
    have ih' := ih (l.filter fun it => !(it.path = t)) hnd.2 ?cov
    case cov =>
      intro it hit
      rw [List.mem_filter] at hit
      have hmem := hc it hit.1
      rw [List.mem_cons] at hmem
      refine hmem.resolve_left fun h => ?con
      have := hit.2
      rw [h] at this
      simp at this
    exact (ih'.append_left _).trans (List.filter_append_perm _ l)

/-- Total size of the removed-candidate bag is conserved: `removed` plus
`changed` account for all of it. -/
lemma betweenEnums_length_old (allRemoved allAdded : List PublicItem) :
    (betweenEnums allRemoved allAdded).removed.length
      + (betweenEnums allRemoved allAdded).changed.length
      = allRemoved.length := by
  show (List.insertionSort _ _).length + (List.insertionSort _ _).length = _
  rw [(List.perm_insertionSort _ _).length_eq, (List.perm_insertionSort _ _).length_eq,
    List.length_flatMap, List.length_flatMap, ← sum_map_add_distrib]
  have pw : ∀ p ∈ touchedPaths allRemoved allAdded,
      (List.length ∘ fun p =>
          (pairItems (bag_to_path_map allRemoved p).reverse
            (bag_to_path_map allAdded p).reverse).1) p
        + (List.length ∘ fun p =>
          (pairItems (bag_to_path_map allRemoved p).reverse
            (bag_to_path_map allAdded p).reverse).2.1) p
      = (List.length ∘ fun p => allRemoved.filter fun it => it.path = p) p := by
    intro p _
    rw [Function.comp_apply, Function.comp_apply, Function.comp_apply,
      pairItems_length_old, List.length_reverse]
    rfl
  rw [List.map_congr_left pw, ← List.length_flatMap]
  exact (flatMap_filter_perm _ _ (nodup_touchedPaths allRemoved allAdded)
    fun it hit => path_mem_touchedPaths (Or.inl hit)).length_eq

/-- Total size of the added-candidate bag is conserved likewise. -/
lemma betweenEnums_length_new (allRemoved allAdded : List PublicItem) :
    (betweenEnums allRemoved allAdded).added.length
      + (betweenEnums allRemoved allAdded).changed.length
      = allAdded.length := by
  show (List.insertionSort _ _).length + (List.insertionSort _ _).length = _
  rw [(List.perm_insertionSort _ _).length_eq, (List.perm_insertionSort _ _).length_eq,
    List.length_flatMap, List.length_flatMap, ← sum_map_add_distrib]
  have pw : ∀ p ∈ touchedPaths allRemoved allAdded,
      (List.length ∘ fun p =>
          (pairItems (bag_to_path_map allRemoved p).reverse
            (bag_to_path_map allAdded p).reverse).2.2) p
        + (List.length ∘ fun p =>
          (pairItems (bag_to_path_map allRemoved p).reverse
            (bag_to_path_map allAdded p).reverse).2.1) p
      = (List.length ∘ fun p => allAdded.filter fun it => it.path = p) p := by
    intro p _
    rw [Function.comp_apply, Function.comp_apply, Function.comp_apply,
      pairItems_length_new, List.length_reverse]
    rfl
  rw [List.map_congr_left pw, ← List.length_flatMap]
  exact (flatMap_filter_perm _ _ (nodup_touchedPaths allRemoved allAdded)
    fun it hit => path_mem_touchedPaths (Or.inr hit)).length_eq

/-! ### Simple valid enumerations, for the witnesses -/

lemma isDiffEnum_nil_left (x : List PublicItem) : IsDiffEnum [] x [] :=
  fun v => by simp

lemma isDiffEnum_nil_right (x : List PublicItem) : IsDiffEnum x [] x :=
  fun v => by simp

lemma isDiffEnum_self (x : List PublicItem) : IsDiffEnum x x [] :=
  fun v => by simp

lemma isDiffEnum_singleton_pair {a b : PublicItem} (h : a ≠ b) :
    IsDiffEnum [a] [b] [a] := by
  intro v
  simp only [List.count_cons, List.count_nil, beq_iff_eq, Nat.zero_add]
  by_cases h1 : a = v
  · subst h1
    rw [if_pos rfl, if_neg fun hb => h hb.symm]
  · rw [if_neg h1, Nat.zero_sub]

/-- When no value of `old` occurs in `new`, the whole of `old` is an
admissible enumeration of the difference `old − new`. -/
lemma isDiffEnum_of_not_mem {old new : List PublicItem}
    (h : ∀ v ∈ old, v ∉ new) : IsDiffEnum old new old := by
  intro v
  by_cases hv : v ∈ old
  · rw [List.count_eq_zero_of_not_mem (h v hv), Nat.sub_zero]
  · rw [List.count_eq_zero_of_not_mem hv, Nat.zero_sub]

/-- Admissibility only constrains multiplicities, so it transfers along
permutations of the enumeration. -/
lemma isDiffEnum_perm_enum {old new e e' : List PublicItem}
    (h : IsDiffEnum old new e) (hp : e'.Perm e) : IsDiffEnum old new e' :=
  fun v => (hp.count_eq v).trans (h v)

/-! ### The claims -/

/-- C1: Count conservation.  For every pair of finite input sequences and
every distinct item value `v`, the occurrences of `v` in `removed` plus
the changed pairs whose `old` member is `v` equal
`max 0 (count v old − count v new)` (truncated `Nat` subtraction), and
symmetrically on the `added`/`new` side.  Stated for every admissible
`HashBag` iteration order (`renum`, `aenum`) and in particular for
`between` itself. -/
theorem C1_count_conservation (old new renum aenum : List PublicItem)
    (h₁ : IsDiffEnum old new renum) (h₂ : IsDiffEnum new old aenum)
    (v : PublicItem) :
    ((betweenEnums renum aenum).removed.count v
        + (betweenEnums renum aenum).changed.countP (fun c => c.old = v)
      = old.count v - new.count v)
    ∧ ((betweenEnums renum aenum).added.count v
        + (betweenEnums renum aenum).changed.countP (fun c => c.new = v)
      = new.count v - old.count v)
    ∧ ((between old new).removed.count v
        + (between old new).changed.countP (fun c => c.old = v)
      = old.count v - new.count v)
    ∧ ((between old new).added.count v
        + (between old new).changed.countP (fun c => c.new = v)
      = new.count v - old.count v) :=
  ⟨(betweenEnums_count_old renum aenum v).trans (h₁ v),
   (betweenEnums_count_new renum aenum v).trans (h₂ v),
   (betweenEnums_count_old _ _ v).trans (isDiffEnum_canonical old new v),
   (betweenEnums_count_new _ _ v).trans (isDiffEnum_canonical new old v)⟩

/-- Witness for C1 at `old = [itemA]`, `new = []`, `v = itemA`. -/
theorem C1_count_conservation_witness :
    (betweenEnums [itemA] []).removed.count itemA
      + (betweenEnums [itemA] []).changed.countP (fun c => c.old = itemA) = 1 := by
  have h := (C1_count_conservation [itemA] [] [itemA] []
    (isDiffEnum_nil_right [itemA]) (isDiffEnum_nil_left [itemA]) itemA).1
  have h2 : ([itemA] : List PublicItem).count itemA
      - ([] : List PublicItem).count itemA = 1 := by decide
  rw [h2] at h
  exact h

/-- C2: Multiset subtraction of candidates.  The removed-candidate bag of
`between` holds `max 0 (count in old − count in new)` occurrences of each
value (and symmetrically), so a value appearing 3× in old and 1× in new
yields 2 removed-candidate occurrences and 0 added-candidate occurrences,
equal counts contribute nothing, and adding one new rendering at a path
whose other renderings are unchanged yields exactly one added item. -/
theorem C2_candidate_multiset_subtraction :
    (∀ old new : List PublicItem, ∀ v : PublicItem,
      (canonicalDiffEnum old new).count v = old.count v - new.count v)
    ∧ (canonicalDiffEnum [itemA, itemA, itemA] [itemA]).count itemA = 2
    ∧ (canonicalDiffEnum [itemA] [itemA, itemA, itemA]).count itemA = 0
    ∧ (canonicalDiffEnum [itemA, itemB] [itemB, itemA]).count itemA = 0
    ∧ between [fnI8, fnI32, fnI64] [fnU8, fnI8, fnI32, fnI64]
        = ⟨[], [], [fnU8]⟩ :=
  ⟨fun old new v => isDiffEnum_canonical old new v,
   by decide, by decide, by decide, by decide⟩

/-- C3: Pairing count arithmetic.  For every path with `r`
removed-candidate instances and `a` added-candidate instances, the result
holds exactly `min r a` changed pairs, `r − min r a` removed items and
`a − min r a` added items at that path, whatever the bag iteration
order. -/
theorem C3_pairing_count_arithmetic (renum aenum : List PublicItem)
    (p : PublicItemPath) :
    (betweenEnums renum aenum).changed.countP (fun c => c.old.path = p)
      = min (bag_to_path_map renum p).length (bag_to_path_map aenum p).length
    ∧ (betweenEnums renum aenum).removed.countP (fun it => it.path = p)
      = (bag_to_path_map renum p).length
        - min (bag_to_path_map renum p).length (bag_to_path_map aenum p).length
    ∧ (betweenEnums renum aenum).added.countP (fun it => it.path = p)
      = (bag_to_path_map aenum p).length
        - min (bag_to_path_map renum p).length (bag_to_path_map aenum p).length := by
  refine ⟨betweenEnums_changed_countP_path renum aenum p, ?hr, ?ha⟩
  · have h := betweenEnums_removed_countP_path renum aenum p
    omega
  · have h := betweenEnums_added_countP_path renum aenum p
    omega

/-- C4: Path locality.  Every changed pair joins two items of one path,
and no removed item shares a path with any added item of the same
result, whatever the bag iteration order. -/
theorem C4_path_locality (renum aenum : List PublicItem) :
    (∀ c ∈ (betweenEnums renum aenum).changed, c.old.path = c.new.path)
    ∧ ∀ x ∈ (betweenEnums renum aenum).removed,
        ∀ y ∈ (betweenEnums renum aenum).added, x.path ≠ y.path :=
  ⟨fun _ hc => (betweenEnums_mem_changed hc).2,
   fun _ hx _ hy => betweenEnums_paths_disjoint hx hy⟩

/-- Witness for C4 on a diff producing one changed pair, one removed item
and one added item. -/
theorem C4_path_locality_witness :
    ((⟨itemA, itemB⟩ : ChangedPublicItem).old.path
        = (⟨itemA, itemB⟩ : ChangedPublicItem).new.path)
    ∧ itemE.path ≠ itemG.path :=
  ⟨(C4_path_locality [itemA, itemE] [itemB, itemG]).1 ⟨itemA, itemB⟩ (by decide),
   (C4_path_locality [itemA, itemE] [itemB, itemG]).2 itemE (by decide)
     itemG (by decide)⟩

/-- C5 counterexample: two calls whose arguments are permutations of each
other (swapping the two old items) do not return byte-identical results —
the pairing inside `changed` follows the bag iteration order, which
follows the inputs here.  Refutes the claim as stated. -/
theorem C5_counterexample :
    ([itemA, itemB] : List PublicItem).Perm [itemB, itemA]
    ∧ between [itemA, itemB] [itemC, itemD] ≠ between [itemB, itemA] [itemC, itemD] :=
  ⟨List.Perm.swap itemB itemA [], by decide⟩

/-- C5 amended: calls on permuted inputs (under any admissible bag
iteration orders, hence also repeated calls on identical inputs) agree on
every conservation count (occurrences of each value in `removed` plus
changed-`old` occurrences, and the `added` side) and on the per-path
counts of `removed`, `changed` and `added`; only the concrete pairing
inside `changed` (and which same-path candidates it leaves in `removed`
or `added`) may differ. -/
theorem C5_determinism_up_to_pairing
    (old new old' new' renum aenum renum' aenum' : List PublicItem)
    (hold : old.Perm old') (hnew : new.Perm new')
    (h₁ : IsDiffEnum old new renum) (h₂ : IsDiffEnum new old aenum)
    (h₁' : IsDiffEnum old' new' renum') (h₂' : IsDiffEnum new' old' aenum') :
    (∀ v : PublicItem,
      ((betweenEnums renum aenum).removed.count v
          + (betweenEnums renum aenum).changed.countP (fun c => c.old = v)
        = (betweenEnums renum' aenum').removed.count v
          + (betweenEnums renum' aenum').changed.countP (fun c => c.old = v))
      ∧ ((betweenEnums renum aenum).added.count v
          + (betweenEnums renum aenum).changed.countP (fun c => c.new = v)
        = (betweenEnums renum' aenum').added.count v
          + (betweenEnums renum' aenum').changed.countP (fun c => c.new = v)))
    ∧ ∀ p : PublicItemPath,
        (betweenEnums renum aenum).removed.countP (fun it => it.path = p)
          = (betweenEnums renum' aenum').removed.countP (fun it => it.path = p)
        ∧ (betweenEnums renum aenum).changed.countP (fun c => c.old.path = p)
          = (betweenEnums renum' aenum').changed.countP (fun c => c.old.path = p)
        ∧ (betweenEnums renum aenum).added.countP (fun it => it.path = p)
          = (betweenEnums renum' aenum').added.countP (fun it => it.path = p) := by
  have h₁t : IsDiffEnum old new renum' := fun v => by
    rw [h₁' v, ← hold.count_eq v, ← hnew.count_eq v]
  have h₂t : IsDiffEnum new old aenum' := fun v => by
    rw [h₂' v, ← hold.count_eq v, ← hnew.count_eq v]
  have hpr : renum.Perm renum' := isDiffEnum_perm h₁ h₁t
  have hpa : aenum.Perm aenum' := isDiffEnum_perm h₂ h₂t
  constructor
  · intro v
    constructor
    · rw [betweenEnums_count_old renum aenum v, betweenEnums_count_old renum' aenum' v,
        hpr.count_eq v]
    · rw [betweenEnums_count_new renum aenum v, betweenEnums_count_new renum' aenum' v,
        hpa.count_eq v]
  · intro p
    have hlr : (bag_to_path_map renum p).length = (bag_to_path_map renum' p).length :=
      (hpr.filter _).length_eq
    have hla : (bag_to_path_map aenum p).length = (bag_to_path_map aenum' p).length :=
      (hpa.filter _).length_eq
    refine ⟨?h1, ?h2, ?h3⟩
    · rw [betweenEnums_removed_countP_path, betweenEnums_removed_countP_path, hlr, hla]
    · rw [betweenEnums_changed_countP_path, betweenEnums_changed_countP_path, hlr, hla]
    · rw [betweenEnums_added_countP_path, betweenEnums_added_countP_path, hlr, hla]

/-- Witness for the amended C5: diffing `[itemA, itemB]` and its
permutation `[itemB, itemA]` against the empty collection gives equal
removed-plus-changed counts for `itemA`. -/
theorem C5_determinism_witness :
    (betweenEnums [itemA, itemB] []).removed.count itemA
        + (betweenEnums [itemA, itemB] []).changed.countP (fun c => c.old = itemA)
      = (betweenEnums [itemB, itemA] []).removed.count itemA
        + (betweenEnums [itemB, itemA] []).changed.countP (fun c => c.old = itemA) :=
  ((C5_determinism_up_to_pairing [itemA, itemB] [] [itemB, itemA] []
      [itemA, itemB] [] [itemB, itemA] []
      (List.Perm.swap itemB itemA []) (List.Perm.refl [])
      (isDiffEnum_nil_right _) (isDiffEnum_nil_left _)
      (isDiffEnum_nil_right _) (isDiffEnum_nil_left _)).1 itemA).1

/-- C6 counterexample.  First, as a sequence property the claim already
fails on matched iteration orders: with two changed pairs at one path,
sorting the mirrored pairs by their (swapped) `old` member reorders them,
so `between(old, new).changed` is not the pairwise swap of
`between(new, old).changed`.  Second, the two calls run under independent
unspecified hash orders, and then even `removed`/`added` need not
correspond as sequences or multisets: with `old = [itemA, itemB]`,
`new = [itemC]` at one path, admissible orders exist under which the
first call leaves `itemA` removed while the swapped call leaves `itemB`
added. -/
theorem C6_counterexample :
    (¬ ((between [itemB, itemA] [itemC, itemD]).removed
          = (between [itemC, itemD] [itemB, itemA]).added
      ∧ (between [itemB, itemA] [itemC, itemD]).added
          = (between [itemC, itemD] [itemB, itemA]).removed
      ∧ (between [itemB, itemA] [itemC, itemD]).changed
          = (between [itemC, itemD] [itemB, itemA]).changed.map
              (fun c => (⟨c.new, c.old⟩ : ChangedPublicItem))))
    ∧ (IsDiffEnum [itemA, itemB] [itemC] [itemA, itemB]
      ∧ IsDiffEnum [itemC] [itemA, itemB] [itemC]
      ∧ IsDiffEnum [itemA, itemB] [itemC] [itemB, itemA]
      ∧ (betweenEnums [itemA, itemB] [itemC]).removed
          ≠ (betweenEnums [itemC] [itemB, itemA]).added
      ∧ (betweenEnums [itemA, itemB] [itemC]).changed
          ≠ (betweenEnums [itemC] [itemB, itemA]).changed.map
              (fun c => (⟨c.new, c.old⟩ : ChangedPublicItem))) :=
  ⟨by decide,
   isDiffEnum_of_not_mem (by decide),
   isDiffEnum_of_not_mem (by decide),
   isDiffEnum_perm_enum (isDiffEnum_of_not_mem (by decide))
     (List.Perm.swap itemA itemB []),
   by decide, by decide⟩

/-- C6 amended: `between(old, new)` and `between(new, old)`, each under
its own independent admissible bag iteration order, are symmetric at the
level of counts: for every item value `v`, removed-count plus
changed-`old`-count of one call equals added-count plus
changed-`new`-count of the other, and for every path the removed count of
one call equals the added count of the other, with equal changed counts.
The sequences themselves need not correspond, because each call pairs
same-path duplicates by its own iteration order. -/
theorem C6_symmetry_of_counts
    (old new renum aenum renum' aenum' : List PublicItem)
    (h₁ : IsDiffEnum old new renum) (h₂ : IsDiffEnum new old aenum)
    (h₁' : IsDiffEnum new old renum') (h₂' : IsDiffEnum old new aenum') :
    (∀ v : PublicItem,
      ((betweenEnums renum aenum).removed.count v
          + (betweenEnums renum aenum).changed.countP (fun c => c.old = v)
        = (betweenEnums renum' aenum').added.count v
          + (betweenEnums renum' aenum').changed.countP (fun c => c.new = v))
      ∧ ((betweenEnums renum aenum).added.count v
          + (betweenEnums renum aenum).changed.countP (fun c => c.new = v)
        = (betweenEnums renum' aenum').removed.count v
          + (betweenEnums renum' aenum').changed.countP (fun c => c.old = v)))
    ∧ ∀ p : PublicItemPath,
        (betweenEnums renum aenum).removed.countP (fun it => it.path = p)
          = (betweenEnums renum' aenum').added.countP (fun it => it.path = p)
        ∧ (betweenEnums renum aenum).changed.countP (fun c => c.old.path = p)
          = (betweenEnums renum' aenum').changed.countP (fun c => c.old.path = p)
        ∧ (betweenEnums renum aenum).added.countP (fun it => it.path = p)
          = (betweenEnums renum' aenum').removed.countP (fun it => it.path = p) := by
  have hra : renum.Perm aenum' := isDiffEnum_perm h₁ h₂'
  have har : aenum.Perm renum' := isDiffEnum_perm h₂ h₁'
  constructor
  · intro v
    constructor
    · rw [betweenEnums_count_old renum aenum v, betweenEnums_count_new renum' aenum' v,
        h₁ v, h₂' v]
    · rw [betweenEnums_count_new renum aenum v, betweenEnums_count_old renum' aenum' v,
        h₂ v, h₁' v]
  · intro p
    have hlr : (bag_to_path_map renum p).length = (bag_to_path_map aenum' p).length :=
      (hra.filter _).length_eq
    have hla : (bag_to_path_map aenum p).length = (bag_to_path_map renum' p).length :=
      (har.filter _).length_eq
    refine ⟨?g1, ?g2, ?g3⟩
    · rw [betweenEnums_removed_countP_path, betweenEnums_added_countP_path, hlr, hla]
    · rw [betweenEnums_changed_countP_path, betweenEnums_changed_countP_path, hlr, hla]
      exact Nat.min_comm _ _
    · rw [betweenEnums_added_countP_path, betweenEnums_removed_countP_path, hlr, hla]

/-- Witness for the amended C6, on the uncorrelated iteration orders of
the counterexample: `[itemA, itemB]` for the first call but `[itemB,
itemA]` for the swapped call. -/
theorem C6_symmetry_of_counts_witness :
    (betweenEnums [itemA, itemB] [itemC]).removed.count itemA
        + (betweenEnums [itemA, itemB] [itemC]).changed.countP (fun c => c.old = itemA)
      = (betweenEnums [itemC] [itemB, itemA]).added.count itemA
        + (betweenEnums [itemC] [itemB, itemA]).changed.countP (fun c => c.new = itemA) :=
  ((C6_symmetry_of_counts [itemA, itemB] [itemC]
      [itemA, itemB] [itemC] [itemC] [itemB, itemA]
      (isDiffEnum_of_not_mem (by decide)) (isDiffEnum_of_not_mem (by decide))
      (isDiffEnum_of_not_mem (by decide))
      (isDiffEnum_perm_enum (isDiffEnum_of_not_mem (by decide))
        (List.Perm.swap itemA itemB []))).1 itemA).1

/-- C7: Sorted output.  All three sequences of every result are sorted
ascending by the items' total order; changed pairs are ordered by their
`old` member first and their `new` member second.  Stated for every bag
iteration order and in particular for `between`. -/
theorem C7_sorted_output (renum aenum old new : List PublicItem) :
    ((betweenEnums renum aenum).removed.Sorted (· ≤ ·)
      ∧ (betweenEnums renum aenum).changed.Sorted
          (fun c₁ c₂ => c₁.old < c₂.old ∨ (c₁.old = c₂.old ∧ c₁.new ≤ c₂.new))
      ∧ (betweenEnums renum aenum).added.Sorted (· ≤ ·))
    ∧ ((between old new).removed.Sorted (· ≤ ·)
      ∧ (between old new).changed.Sorted
          (fun c₁ c₂ => c₁.old < c₂.old ∨ (c₁.old = c₂.old ∧ c₁.new ≤ c₂.new))
      ∧ (between old new).added.Sorted (· ≤ ·)) := by
  have hch : ∀ r a : List PublicItem, (betweenEnums r a).changed.Sorted
      (fun c₁ c₂ => c₁.old < c₂.old ∨ (c₁.old = c₂.old ∧ c₁.new ≤ c₂.new)) := by
    intro r a
    exact List.Pairwise.imp (fun hab => (ChangedPublicItem.le_iff _ _).mp hab)
      (betweenEnums_sorted r a).2.1
  exact ⟨⟨(betweenEnums_sorted _ _).1, hch _ _, (betweenEnums_sorted _ _).2.2⟩,
    ⟨(betweenEnums_sorted _ _).1, hch _ _, (betweenEnums_sorted _ _).2.2⟩⟩

/-- C8: Idempotence on equal inputs.  Diffing any collection against
itself yields a result whose `is_empty` is true, for every admissible bag
iteration order and in particular for `between`. -/
theorem C8_between_self_is_empty (x renum aenum : List PublicItem)
    (h₁ : IsDiffEnum x x renum) (h₂ : IsDiffEnum x x aenum) :
    (betweenEnums renum aenum).is_empty = true
    ∧ (between x x).is_empty = true := by
  obtain rfl := isDiffEnum_self_eq_nil h₁
  obtain rfl := isDiffEnum_self_eq_nil h₂
  refine ⟨rfl, ?hb⟩
  show (betweenEnums (canonicalDiffEnum x x) (canonicalDiffEnum x x)).is_empty = true
  rw [isDiffEnum_self_eq_nil (isDiffEnum_canonical x x)]
  rfl

/-- Witness for C8 on a three-element collection with a duplicate. -/
theorem C8_between_self_is_empty_witness :
    (between [itemA, itemB, itemA] [itemA, itemB, itemA]).is_empty = true :=
  (C8_between_self_is_empty [itemA, itemB, itemA] [] []
    (isDiffEnum_self _) (isDiffEnum_self _)).2

/-- C9: ChangedItem well-formedness.  Every changed pair consists of an
`old` member whose value occurs in the old input and a `new` member whose
value occurs in the new input, the two members share one path, and they
differ in full value. -/
theorem C9_changed_item_well_formed (old new renum aenum : List PublicItem)
    (h₁ : IsDiffEnum old new renum) (h₂ : IsDiffEnum new old aenum) :
    ∀ c ∈ (betweenEnums renum aenum).changed,
      c.old ∈ old ∧ c.new ∈ new ∧ c.old.path = c.new.path ∧ c.old ≠ c.new := by
  intro c hc
  obtain ⟨⟨ho, hn⟩, hp⟩ := betweenEnums_mem_changed hc
  have hco : new.count c.old < old.count c.old := by
    have h := h₁ c.old
    have hpos : 0 < renum.count c.old := List.count_pos_iff.mpr ho
    omega
  have hcn : old.count c.new < new.count c.new := by
    have h := h₂ c.new
    have hpos : 0 < aenum.count c.new := List.count_pos_iff.mpr hn
    omega
  refine ⟨List.count_pos_iff.mp (by omega), List.count_pos_iff.mp (by omega), hp, ?hne⟩
  intro he
  rw [he] at hco
  omega

/-- Witness for C9 on two distinct renderings at one path. -/
theorem C9_changed_item_well_formed_witness :
    (⟨itemA, itemB⟩ : ChangedPublicItem).old ∈ ([itemA] : List PublicItem)
    ∧ (⟨itemA, itemB⟩ : ChangedPublicItem).new ∈ ([itemB] : List PublicItem)
    ∧ (⟨itemA, itemB⟩ : ChangedPublicItem).old.path
        = (⟨itemA, itemB⟩ : ChangedPublicItem).new.path
    ∧ (⟨itemA, itemB⟩ : ChangedPublicItem).old
        ≠ (⟨itemA, itemB⟩ : ChangedPublicItem).new :=
  C9_changed_item_well_formed [itemA] [itemB] [itemA] [itemB]
    (isDiffEnum_singleton_pair (by decide)) (isDiffEnum_singleton_pair (by decide))
    ⟨itemA, itemB⟩ (by decide)

/-- C10: Totality and termination.  `between` is a total function (it is
defined by structural recursion on finite lists, so it terminates on all
inputs with no error outcome); its output size is bounded by the input
size, and diffing two empty collections yields an empty result. -/
theorem C10_total_and_terminating (old new : List PublicItem) :
    (between old new).removed.length + (between old new).changed.length
        + (between old new).added.length ≤ old.length + new.length
    ∧ (between ([] : List PublicItem) []).is_empty = true := by
  refine ⟨?hb, rfl⟩
  have h1 := betweenEnums_length_old (canonicalDiffEnum old new) (canonicalDiffEnum new old)
  have h2 := betweenEnums_length_new (canonicalDiffEnum old new) (canonicalDiffEnum new old)
  have h3 := length_canonicalDiffEnum_le old new
  have h4 := length_canonicalDiffEnum_le new old
  unfold between
  omega
